import Mathlib

/-!
Shallow embedding of the morpheme-segmentation core of `network.py`:
the grammar automaton (`get_next_morpheme_types`, `get_next_morpheme`,
`is_correct_morpheme_sequence`), the constrained decoder
(`Partitioner._decode_best`), length bucketing (`make_bucket_lengths`,
`collect_buckets`), label-to-morpheme conversion
(`Partitioner.labels_to_morphemes`) and the flat-mode morpheme context
encoder (`Partitioner._make_morpheme_data_simple`).

Modelling conventions:
* Python `str` values are Lean `String`s (labels) or `List Char` (words).
* Python floats are modelled as exact rationals `ℚ`; assigning a float
  into a numpy `dtype=int` array truncates it toward zero (C cast),
  modelled by `np_int_of_float`.
* Fallible Python statements (those that can raise `ValueError`,
  `TypeError`, `IndexError`, `ZeroDivisionError`) are modelled with
  `Option`: `none` means the call raises.
* The decoder's negative-log-probability costs are represented by the
  path probability product itself, compared in the reversed order: the
  map `p ↦ -log p` is a strictly decreasing bijection from `(0, ∞)`
  onto `(-∞, ∞)` that turns products into sums, and `-log 0 = ∞`, so a
  path cost is infinite exactly when its probability product is `0`.
  Every comparison performed by the source (`np.argsort`, `min`,
  `np.isinf`) is translated through this bijection.
-/

namespace MorphemeSeg

/-! ## Reserved codes (network.py lines 20-22) -/

/-- Source `PAD = 0` (network.py line 20). -/
def PAD : ℕ := 0

/-- Source `BEGIN = 1` (network.py line 20). -/
def BEGIN : ℕ := 1

/-- Source `END = 2` (network.py line 20). -/
def END : ℕ := 2

/-- Source `UNKNOWN = 3` (network.py line 20). -/
def UNKNOWN : ℕ := 3

/-- Source `AUXILIARY_CODES = 0, 1, 2, 3` (network.py line 20). -/
def AUXILIARY_CODES : List ℕ := [PAD, BEGIN, END, UNKNOWN]

/-- Source `AUXILIARY = ['PAD', 'BEGIN', 'END', 'UNKNOWN']` (network.py line 22). -/
def AUXILIARY : List String := ["PAD", "BEGIN", "END", "UNKNOWN"]

/-! ## Grammar automaton (network.py lines 842-904) -/

/-- Helper for `py_split_dash`: accumulates the current field. -/
def split_dash_aux : List Char → List Char → List String
  | [], acc => [String.mk acc]
  | c :: cs, acc =>
    if c = '-' then String.mk acc :: split_dash_aux cs []
    else split_dash_aux cs (acc ++ [c])

/-- Python `s.split("-")`: splits on every dash, keeping empty fields
(`"".split("-") == ['']`, `"A--B".split("-") == ['A', '', 'B']`). -/
def py_split_dash (s : String) : List String := split_dash_aux s.data []

/-- Source `get_next_morpheme_types` (network.py lines 845-865): the morpheme
types allowed to start after a morpheme of type `morpheme_type`.
`MORPHEMES[start:6]` is rendered as `drop start` because the list has
exactly six elements. -/
def get_next_morpheme_types (morpheme_type : String) : List String :=
  if morpheme_type = "None" then ["None"]
  else
    let MORPHEMES : List String := ["SUFF", "END", "LINK", "POSTFIX", "PREF", "ROOT"]
    let start : ℕ :=
      if morpheme_type = "ROOT" ∨ morpheme_type = "SUFF" ∨ morpheme_type = "HYPH" then 0
      else if morpheme_type = "END" then 2
      else if morpheme_type = "PREF" ∨ morpheme_type = "LINK" ∨ morpheme_type = "BEGIN" then 4
      else 6
    let answer := MORPHEMES.drop start
    let answer :=
      if 0 < answer.length ∧ morpheme_type ≠ "HYPH" then answer ++ ["HYPH"] else answer
    if morpheme_type = "BEGIN" then answer ++ ["None"] else answer

/-- Source `get_next_morpheme` (network.py lines 868-884): the labels that may
follow the label `morpheme`.  `none` models the `ValueError` raised by
the tuple unpacking `morpheme_label, morpheme_type = morpheme.split("-")`
when the label does not contain exactly one dash.  The source tests
`morpheme_label in "BM"`, a substring test; it agrees with the equality
disjunction below on every one-character tag produced by the split. -/
def get_next_morpheme (morpheme : String) : Option (List String) :=
  if morpheme = "END" then some []
  else
    let morpheme := if morpheme = "BEGIN" then "S-BEGIN" else morpheme
    match py_split_dash morpheme with
    | [morpheme_label, morpheme_type] =>
      let p : String × List String :=
        if morpheme_label = "B" ∨ morpheme_label = "M" then ("ME", [morpheme_type])
        else ("BS", get_next_morpheme_types morpheme_type)
      some ((p.1.data.map (fun x => p.2.map (fun y => String.singleton x ++ "-" ++ y))).flatten)
    | _ => none

/-- The adjacency loop of `is_correct_morpheme_sequence` (network.py
lines 901-903): `for i, morpheme in enumerate(morphemes[:-1]):
if morphemes[i+1] not in get_next_morpheme(morpheme): return False`. -/
def correct_pairs : List String → Option Bool
  | [] => some true
  | [_] => some true
  | a :: b :: rest =>
    match get_next_morpheme a with
    | none => none
    | some nxt => if b ∈ nxt then correct_pairs (b :: rest) else some false

/-- Source `is_correct_morpheme_sequence` (network.py lines 887-904).  The
checks run in source order: empty, missing dash, first label, last
label, adjacent pairs.  The last-label type list contains the literal
`"ENDING"` exactly as in the source (line 899), even though label types
are serialized as `"END"` everywhere else in the file.  `none` models a
`ValueError` from a split that does not produce exactly two parts. -/
def is_correct_morpheme_sequence (morphemes : List String) : Option Bool :=
  match morphemes with
  | [] => some false
  | m0 :: _ =>
    if morphemes.any (fun m => !(m.data.contains '-')) then some false
    else
      match py_split_dash m0 with
      | [morpheme_label, morpheme_type] =>
        if ¬ (morpheme_label = "B" ∨ morpheme_label = "S") ∨
            ¬ (morpheme_type = "PREF" ∨ morpheme_type = "ROOT" ∨ morpheme_type = "None") then
          some false
        else
          match py_split_dash (morphemes.getLastD "") with
          | [last_label, last_type] =>
            if ¬ (last_label = "E" ∨ last_label = "S") ∨
                ¬ (last_type = "ROOT" ∨ last_type = "SUFF" ∨ last_type = "ENDING" ∨
                   last_type = "POSTFIX" ∨ last_type = "None") then
              some false
            else correct_pairs morphemes
          | _ => none
      | _ => none

/-! ## The decoder's label alphabet

`self.target_symbols_` is produced by `_make_vocabulary` (network.py
lines 25-32) as `AUXILIARY + sorted(symbols)` over the typed label set
used by the segmenter, documented at network.py line 670:
BMES for PREF/ROOT/SUFF/END, BME for POSTFIX, S for LINK/HYPH. -/

/-- The canonical trained label alphabet: the four reserved symbols
followed by the 21 typed labels in Python `sorted` order. -/
def target_symbols_ : List String :=
  AUXILIARY ++
    ["B-END", "B-POSTFIX", "B-PREF", "B-ROOT", "B-SUFF",
     "E-END", "E-POSTFIX", "E-PREF", "E-ROOT", "E-SUFF",
     "M-END", "M-POSTFIX", "M-PREF", "M-ROOT", "M-SUFF",
     "S-END", "S-HYPH", "S-LINK", "S-PREF", "S-ROOT", "S-SUFF"]

/-- Source `self.target_symbol_codes_`: the label-to-code dictionary; `none`
models a `KeyError` (the source guards lookups with `in` when needed). -/
def target_symbol_codes_ (s : String) : Option ℕ := target_symbols_.indexOf? s

/-- Source `self.target_symbols_number_` (network.py lines 224-226). -/
def target_symbols_number_ : ℕ := target_symbols_.length

/-! ## Label-to-morpheme conversion (network.py lines 680-723) -/

/-- The `end_labels` list of `labels_to_morphemes` (network.py lines
696-700), chosen by `self.use_morpheme_types`. -/
def end_labels_for (use_morpheme_types : Bool) : List String :=
  if use_morpheme_types then
    ["E-ROOT", "E-PREF", "E-SUFF", "E-END", "E-POSTFIX", "S-ROOT",
     "S-PREF", "S-SUFF", "S-END", "S-LINK", "S-HYPH"]
  else ["E-None", "S-None"]

/-- The span-collection loop of `labels_to_morphemes` (network.py lines
701-706): walks `zip(word, labels)` accumulating the current morpheme
`curr`, flushing it (and recording `label.split("-")[-1]`) at every
label in `end_labels`.  Returns `(morphemes, morpheme_types)`. -/
def morphemes_loop (end_labels : List String) :
    List (Char × String) → List Char → List (List Char) × List String
  | [], _ => ([], [])
  | (letter, label) :: rest, curr =>
    let curr := curr ++ [letter]
    if label ∈ end_labels then
      let p := morphemes_loop end_labels rest []
      (curr :: p.1, (py_split_dash label).getLastD "" :: p.2)
    else morphemes_loop end_labels rest curr

/-- The morpheme-probability loop of `labels_to_morphemes` (network.py
lines 712-717): multiplies `prob[self.target_symbol_codes_[label]]`
into the running product, flushing at end labels.  `none` models the
`KeyError`/`IndexError` of an unknown label or a too-short row. -/
def morpheme_probs_loop (end_labels : List String) :
    List (String × List ℚ) → ℚ → Option (List ℚ)
  | [], _ => some []
  | (label, prob) :: rest, curr =>
    match target_symbol_codes_ label with
    | none => none
    | some code =>
      if code < prob.length then
        let curr := curr * prob.getD code 0
        if label ∈ end_labels then
          (morpheme_probs_loop end_labels rest 1).map (curr :: ·)
        else morpheme_probs_loop end_labels rest curr
      else none

/-- Source `Partitioner.labels_to_morphemes` (network.py lines 680-723).
The heterogeneous Python answer list `[morphemes, (morpheme_probs),
(morpheme_types)]` is modelled as a triple whose optional components
record whether the corresponding element is appended.  The source's
`Warning(...)` statement (line 709) only constructs an exception
object — it raises nothing — after which `return_probs` is set to
`False`; this is rendered as `return_probs && probs.isSome`. -/
def labels_to_morphemes (use_morpheme_types : Bool) (word : List Char)
    (labels : List String) (probs : Option (List (List ℚ)))
    (return_probs : Bool) (return_types : Bool) :
    Option (List (List Char) × Option (List ℚ) × Option (List String)) :=
  let end_labels := end_labels_for use_morpheme_types
  let p := morphemes_loop end_labels (word.zip labels) []
  let return_probs := return_probs && probs.isSome
  if return_probs then
    match morpheme_probs_loop end_labels (labels.zip (probs.getD [])) 1 with
    | none => none
    | some mprobs =>
      some (p.1, some mprobs, if return_types then some p.2 else none)
  else
    some (p.1, none, if return_types then some p.2 else none)

/-- One plus the position of the last label belonging to `end_labels`,
or `0` if there is none: the length of the word prefix covered by the
returned morphemes. -/
def last_end_count (end_labels : List String) : List String → ℕ
  | [] => 0
  | l :: rest =>
    let k := last_end_count end_labels rest
    if k ≠ 0 then k + 1 else if l ∈ end_labels then 1 else 0

/-! ## Length bucketing (network.py lines 35-70) -/

/-- Python list indexing `l[i]` with negative-index wraparound;
`none` models `IndexError`. -/
def py_get (l : List ℕ) (i : ℤ) : Option ℕ :=
  if 0 ≤ i then l.get? i.toNat
  else if (-i).toNat ≤ l.length then l.get? (l.length - (-i).toNat)
  else none

/-- The loop of `make_bucket_lengths` (network.py lines 42-48), with the
running state `(last_bucket_length, bucket_lengths)`.  The loop index
`i` ranges over `range(buckets_number)` and looks up
`lengths[m*(i+1)//buckets_number - 1]`. -/
def make_bucket_lengths_go (sorted_lengths : List ℕ) (m K : ℕ) :
    List ℕ → ℕ × List ℕ → Option (ℕ × List ℕ)
  | [], st => some st
  | i :: rest, st =>
    match py_get sorted_lengths (((m * (i + 1)) / K : ℕ) - (1 : ℤ)) with
    | none => none
    | some curr_length =>
      if st.1 < curr_length then
        make_bucket_lengths_go sorted_lengths m K rest (curr_length, st.2 ++ [curr_length])
      else make_bucket_lengths_go sorted_lengths m K rest st

/-- Source `make_bucket_lengths` (network.py lines 35-49).  `none` models the
`IndexError` raised when `lengths` is empty and `buckets_number ≥ 1`
(the level `-1` then indexes into an empty sorted list). -/
def make_bucket_lengths (lengths : List ℕ) (buckets_number : ℕ) : Option (List ℕ) :=
  (make_bucket_lengths_go (lengths.insertionSort (· ≤ ·)) lengths.length buckets_number
    (List.range buckets_number) (0, [])).map Prod.snd

/-- Library `bisect.bisect_left` on an ascending list: the leftmost insertion
point, i.e. the number of leading elements smaller than `x`. -/
def bisect_left (l : List ℕ) (x : ℕ) : ℕ := (l.takeWhile (fun y => y < x)).length

/-- Statement `indexes[idx].append(v)`; `none` models the `IndexError` raised when
`idx` is out of range. -/
def append_at (idx v : ℕ) : List (List ℕ) → Option (List (List ℕ))
  | [] => none
  | b :: bs =>
    match idx with
    | 0 => some ((b ++ [v]) :: bs)
    | j + 1 => (append_at j v bs).map (b :: ·)

/-- The assignment loop of `collect_buckets` (network.py lines 58-60):
`for i, length in enumerate(lengths):
indexes[bisect_left(bucket_lengths, length)].append(i)`. -/
def assign_go (bucket_lengths : List ℕ) :
    List ℕ → ℕ → List (List ℕ) → Option (List (List ℕ))
  | [], _, indexes => some indexes
  | L :: rest, i, indexes =>
    match append_at (bisect_left bucket_lengths L) i indexes with
    | none => none
    | some indexes => assign_go bucket_lengths rest (i + 1) indexes

/-- Python `range(0, stop, step)` for a positive `step`. -/
def py_range_step (stop step : ℕ) : List ℕ :=
  (List.range ((stop + step - 1) / step)).map (· * step)

/-- The chunks of one bucket produced by the splitting comprehension
`[curr_indexes[start:start+max_bucket_size]
for start in range(0, len(curr_indexes), max_bucket_size)]`
(network.py lines 66-68). -/
def chunks_of (S : ℕ) (ci : List ℕ) : List (List ℕ) :=
  (py_range_step ci.length S).map (fun start => (ci.drop start).take S)

/-- Source `collect_buckets` (network.py lines 52-70).  `max_bucket_size` is an
integer defaulting to `-1` ("no limit").  `none` models the exceptions:
`IndexError` when a length cannot be assigned to any bucket (empty
threshold list), and the `ZeroDivisionError`/`ValueError` raised by
`max_bucket_size = 0` in the splitting step.  For `max_bucket_size ≤ -2`
every `range(0, len, step)` with a negative step is empty, so Python
returns the empty list; the final branch mirrors that. -/
def collect_buckets (lengths : List ℕ) (buckets_number : ℕ)
    (max_bucket_size : ℤ) : Option (List (ℕ × List ℕ)) :=
  match make_bucket_lengths lengths buckets_number with
  | none => none
  | some bucket_lengths =>
    match assign_go bucket_lengths lengths 0 (bucket_lengths.map (fun _ => [])) with
    | none => none
    | some indexes =>
      if max_bucket_size = -1 then
        some ((bucket_lengths.zip indexes).filter (fun p => p.2.length ≠ 0))
      else if max_bucket_size = 0 then none
      else if max_bucket_size < 0 then some []
      else
        let S := max_bucket_size.toNat
        let bucket_lengths2 :=
          (((bucket_lengths.zip indexes).filter (fun p => p.2.length ≠ 0)).map
            (fun p => List.replicate ((p.2.length - 1) / S + 1) p.1)).flatten
        let indexes2 := (indexes.map (chunks_of S)).flatten
        some ((bucket_lengths2.zip indexes2).filter (fun p => p.2.length ≠ 0))

/-! ## Flat-mode morpheme context encoder (network.py lines 362-377) -/

/-- Assignment of a Python float into a numpy `dtype=int` array casts
by truncation toward zero (C semantics); on an exact rational this is
t-division of numerator by denominator. -/
def np_int_of_float (q : ℚ) : ℤ := q.num.tdiv q.den

/-- Matrix read `mat[i, j]` of the integer buffer (in-range at every
index the development uses, where numpy indexing is defined). -/
def mat_get (mat : List (List ℤ)) (i j : ℕ) : ℤ := (mat.getD i []).getD j 0

/-- Matrix write `mat[i, j] = v` of the integer buffer: the assigned
Python number (a rational here) is truncated toward zero by the
`dtype=int` array (network.py line 366). -/
def mat_set (mat : List (List ℤ)) (i j : ℕ) (v : ℚ) : List (List ℤ) :=
  mat.set i ((mat.getD i []).set j (np_int_of_float v))

/-- The per-word body of `Partitioner._make_morpheme_data_simple`
(network.py lines 362-377).  The trie query
`self.morpheme_trie_.find_substrings(word, return_positions=True)` and
the scorer `self._get_ngram_score` are the external collaborators of
§6, passed as functions; `word[start:end]` is `drop start, take
(end - start)`.  The buffer `curr_answer` is
`np.zeros(shape=(bucket_length, 3), dtype=int)` (line 366), so Python's
`max` compares the stored integer (cast to a number) with the float
score, and the assignment truncates the result toward zero.  Note line
374 of the source: the left-boundary write is
`curr_answer[start+1, 0] = max(curr_answer[start+0, 2], score)` —
it reads the single-character channel of the neighboring row `start`
and assigns the result unconditionally. -/
def make_morpheme_data_simple_word
    (find_substrings : List Char → List (List ℕ × ℕ))
    (get_ngram_score : List Char → ℚ)
    (bucket_length : ℕ) (word : List Char) : List (List ℤ) :=
  (find_substrings word).foldl (fun curr p =>
    p.1.foldl (fun curr start =>
      let score := get_ngram_score ((word.drop start).take (p.2 - start))
      if p.2 = start + 1 then
        mat_set curr (start + 1) 2 (max ((mat_get curr (start + 1) 2 : ℚ)) score)
      else
        let curr := mat_set curr (start + 1) 0 (max ((mat_get curr (start + 0) 2 : ℚ)) score)
        mat_set curr p.2 1 (max ((mat_get curr p.2 1 : ℚ)) score)) curr)
    (List.replicate bucket_length [0, 0, 0])

/-- Dictionary scores for the C5 failing input, integer-valued so the
`dtype=int` buffer stores them exactly: the ngram `ab` is a strongly
attested morpheme (count 9), every other ngram counts 1 (the memorised
scorer at network.py lines 379-383 returns such dictionary counts). -/
def overwrite_example_score : List Char → ℚ :=
  fun s => if s = ['a', 'b'] then 9 else 1

/-- Encoder output on word `abc` with two dictionary matches starting
at offset 0 (end offsets 2 and 3), processed in that order. -/
def overwrite_example_matrix : List (List ℤ) :=
  make_morpheme_data_simple_word (fun _ => [([0], 2), ([0], 3)])
    overwrite_example_score 5 ['a', 'b', 'c']

/-! ## Constrained decoder (network.py lines 730-784)

Costs are represented by path-probability products compared in reversed
order (see the header): a cost is infinite iff the product is `0`,
`np.argsort` ascending by cost is descending by probability, and the
first-write-wins update adds `-log probs[i+1, state]`, i.e. multiplies
the product by `probs[i+1, state]`. -/

/-- Access `probs[i, s]` (in range under the probability-matrix shape of the
theorems below, where numpy indexing is defined). -/
def getP (probs : List (List ℚ)) (i s : ℕ) : ℚ := (probs.getD i []).getD s 0

/-- Accumulator loop of `np.argmax`. -/
def argmax_aux : List ℚ → ℕ → ℕ → ℚ → ℕ
  | [], _, bi, _ => bi
  | x :: xs, i, bi, bv =>
    if bv < x then argmax_aux xs (i + 1) i x else argmax_aux xs (i + 1) bi bv

/-- Library `np.argmax` over one row: the first index of the maximal entry
(`0` on an empty row, which numpy rejects; rows are nonempty under the
shape hypotheses). -/
def np_argmax : List ℚ → ℕ
  | [] => 0
  | x :: xs => argmax_aux xs 1 0 x

/-- Library `np.argsort(costs[-1])` in the cost encoding: state indices sorted
by ascending cost = descending path probability; insertion sort keeps
equal-probability states in index order (one fixed refinement of
numpy's unspecified tie order). -/
def argsort_by_cost (prev : List ℚ) : List ℕ :=
  (List.range prev.length).insertionSort (fun a b => prev.getD b 0 < prev.getD a 0)

/-- Source `Partitioner.get_possible_next_states` (network.py lines 829-832):
looks up the label of the state, takes its grammar successors, and
keeps the codes present in the alphabet.  `none` models the exceptions
of an out-of-range state index or an unsplittable label. -/
def get_possible_next_states (state_index : ℕ) : Option (List ℕ) :=
  match target_symbols_.get? state_index with
  | none => none
  | some state =>
    (get_next_morpheme state).map (fun next_states =>
      next_states.filterMap (fun x => target_symbol_codes_ x))

/-- The inner update loop of the fallback search (network.py lines
756-763): each not-yet-reached state (`np.isinf`, probability `0`)
receives the cost of the current predecessor extended by the state's
own row probability, its predecessor pointer is stored, and
`inf_count` is decremented.  A zero row probability writes an infinite
cost (product `0`), so that state stays eligible for later writers and
the counter is decremented again — exactly as in the source. -/
def expand_states (pp : ℚ) (prow : List ℚ) (prev_state : ℕ) :
    List ℕ → List ℚ × List (Option ℕ) × ℤ → List ℚ × List (Option ℕ) × ℤ
  | [], acc => acc
  | st :: rest, (curr, ptr, ic) =>
    if curr.getD st 0 = 0 then
      expand_states pp prow prev_state rest
        (curr.set st (pp * prow.getD st 0), ptr.set st (some prev_state), ic - 1)
    else expand_states pp prow prev_state rest (curr, ptr, ic)

/-- The predecessor loop of one DP layer (network.py lines 750-766):
predecessors are visited in ascending cost order, iteration stops at
the first unreached predecessor (infinite cost: probability `0`),
reserved codes are skipped at every layer after the first, and the
layer ends early when `inf_count` reaches `len(AUXILIARY_CODES)`. -/
def process_order (prow : List ℚ) (prev : List ℚ) (i : ℕ) :
    List ℕ → List ℚ × List (Option ℕ) × ℤ → Option (List ℚ × List (Option ℕ))
  | [], (curr, ptr, _) => some (curr, ptr)
  | prev_state :: rest, (curr, ptr, ic) =>
    if prev.getD prev_state 0 = 0 then some (curr, ptr)
    else if prev_state ∈ AUXILIARY_CODES ∧ i ≠ 0 then
      process_order prow prev i rest (curr, ptr, ic)
    else
      match get_possible_next_states prev_state with
      | none => none
      | some possible_states =>
        let res := expand_states (prev.getD prev_state 0) prow prev_state
          possible_states (curr, ptr, ic)
        if res.2.2 = (AUXILIARY_CODES.length : ℤ) then some (res.1, res.2.1)
        else process_order prow prev i rest res

/-- One DP layer for target position `i`, using row `probs[i+1]`:
fresh `curr_costs` all infinite (probability `0`), fresh `prev_states`
all `None`, `inf_count` equal to the number of states. -/
def run_layer (probs : List (List ℚ)) (prev : List ℚ) (i : ℕ) :
    Option (List ℚ × List (Option ℕ)) :=
  process_order (probs.getD (i + 1) []) prev i (argsort_by_cost prev)
    (List.replicate target_symbols_number_ 0,
     List.replicate target_symbols_number_ none,
     (target_symbols_number_ : ℤ))

/-- The layer recursion of the fallback (network.py lines 744-768):
appends one `(costs, states)` layer per remaining position. -/
def run_fallback_go (probs : List (List ℚ)) :
    ℕ → ℕ → List (List ℚ) × List (List (Option ℕ)) →
    Option (List (List ℚ) × List (List (Option ℕ)))
  | 0, _, acc => some acc
  | n + 1, i, (costs, states) =>
    match run_layer probs (costs.getLastD []) i with
    | none => none
    | some cs => run_fallback_go probs n (i + 1) (costs ++ [cs.1], states ++ [cs.2])

/-- The fallback DP (network.py lines 740-768).  Layer 0 holds cost
`-log(probs[0, BEGIN])` at `BEGIN` (probability `probs[0, BEGIN]`,
infinite when `0`) and infinity elsewhere; `initial_states[BEGIN]`
is `BEGIN`. -/
def run_fallback (probs : List (List ℚ)) (length : ℕ) :
    Option (List (List ℚ) × List (List (Option ℕ))) :=
  run_fallback_go probs length 0
    ([(List.replicate target_symbols_number_ 0).set BEGIN (getP probs 0 BEGIN)],
     [(List.replicate target_symbols_number_ none).set BEGIN (some BEGIN)])

/-- The admissible final states (network.py lines 770-772): the codes
of `"{E,S}-{ROOT,SUFF,END,POSTFIX,None}"` present in the alphabet, in
generation order. -/
def end_possible_states : List ℕ :=
  (["E", "S"].map (fun x =>
    ["ROOT", "SUFF", "END", "POSTFIX", "None"].filterMap (fun y =>
      target_symbol_codes_ (x ++ "-" ++ y)))).flatten

/-- Python `min(possible_states, key=lambda x: costs[-1][x])` in the
cost encoding: fold keeping the first state of maximal probability
(= minimal cost; Python's `min` keeps the earliest minimum). -/
def min_by_cost_aux (cs : List ℚ) : ℕ → List ℕ → ℕ
  | b, [] => b
  | b, s :: rest =>
    if cs.getD b 0 < cs.getD s 0 then min_by_cost_aux cs s rest
    else min_by_cost_aux cs b rest

/-- Library `min` over the admissible end states; `none` models the
`ValueError` of `min` on an empty candidate list. -/
def min_by_cost (cs : List ℚ) : List ℕ → Option ℕ
  | [] => none
  | s :: rest => some (min_by_cost_aux cs s rest)

/-- The backtracking loop (network.py lines 773-777), built directly in
forward order: `backtrack states j e` is the reverse of the Python
accumulator `[e, states[j][e], states[j-1][...], ...]`.  `none` models
the `TypeError` that a missing (`None`) predecessor pointer eventually
raises — in the backtracking loop itself for interior layers, or in the
trimming loop for a `None` that survives to `best_states[0]`. -/
def backtrack (states : List (List (Option ℕ))) : ℕ → ℕ → Option (List ℕ)
  | 0, cur => some [cur]
  | j + 1, cur =>
    match (states.getD (j + 1) []).getD cur none with
    | none => none
    | some p => (backtrack states j p).map (fun l => l ++ [cur])

/-- Comprehension `[self.target_symbols_[i] for i in codes]`; `none` models the
`IndexError` on an out-of-alphabet code. -/
def opt_labels : List ℕ → Option (List String)
  | [] => some []
  | s :: rest =>
    match target_symbols_.get? s with
    | none => none
    | some lab => (opt_labels rest).map (fun ls => lab :: ls)

/-- Statement `best_states = np.argmax(probs[:1+length], axis=1)`
(network.py line 736). -/
def best_path_states (probs : List (List ℚ)) (length : ℕ) : List ℕ :=
  (probs.take (1 + length)).map np_argmax

/-- Variable `best_labels` of the fast path (network.py line 737). -/
def best_path_labels (probs : List (List ℚ)) (length : ℕ) : Option (List String) :=
  opt_labels (best_path_states probs length)

/-- The trimmed-probability construction (network.py lines 778-783):
row `j` keeps `probs[j+1]` at the states reachable from the chosen
state `best_states[j]` and is zero elsewhere. -/
def trim_probs (probs : List (List ℚ)) : List ℕ → ℕ → Option (List (List ℚ))
  | [], _ => some []
  | st :: rest, j =>
    match get_possible_next_states st with
    | none => none
    | some possible_states =>
      (trim_probs probs rest (j + 1)).map
        (fun m => ((List.range target_symbols_number_).map (fun s =>
          if s ∈ possible_states then getP probs (j + 1) s else 0)) :: m)

/-- Source `Partitioner._decode_best` (network.py lines 730-784) for one word
of content length `length`: the argmax fast path guarded by
`is_correct_morpheme_sequence`, otherwise the fallback shortest-path
search with admissible-end selection and backtracking; finally the
trimmed probability matrix.  `none` models every uncaught exception of
the source. -/
def decode_best (probs : List (List ℚ)) (length : ℕ) :
    Option (List String × List (List ℚ)) :=
  match best_path_labels probs length with
  | none => none
  | some best_labels =>
    match is_correct_morpheme_sequence (best_labels.drop 1) with
    | none => none
    | some ok =>
      let best_statesO : Option (List ℕ) :=
        if ok then some (best_path_states probs length)
        else
          match run_fallback probs length with
          | none => none
          | some cs_sts =>
            match min_by_cost (cs_sts.1.getLastD []) end_possible_states with
            | none => none
            | some e => backtrack cs_sts.2 length e
      match best_statesO with
      | none => none
      | some best_states =>
        match trim_probs probs best_states.dropLast 0 with
        | none => none
        | some probs_to_return =>
          match opt_labels (best_states.drop 1) with
          | none => none
          | some labels => some (labels, probs_to_return)

/-- A sparse probability row over the alphabet: listed entries, zero
elsewhere (test scaffolding for the concrete matrices below). -/
def row_of (entries : List (ℕ × ℚ)) : List ℚ :=
  (List.range target_symbols_number_).map (fun s => ((entries.lookup s).getD 0))

/-- The C1 failing probability matrix (content length 2): row 0
concentrates on `BEGIN`; row 1 prefers `PAD` (3/5) over `S-ROOT` (2/5),
making the argmax sequence invalid; row 2 puts 9/10 on `S-END` and the
rest on `PAD`.  Codes: `BEGIN = 1`, `PAD = 0`, `S-ROOT = 23`,
`S-END = 19`. -/
def c1_matrix : List (List ℚ) :=
  [row_of [(1, 1)], row_of [(0, 3/5), (23, 2/5)], row_of [(0, 1/10), (19, 9/10)]]

/-- Probability matrix on which the fallback reaches nothing: row 0
gives `BEGIN` probability zero, so layer 0 has no finite-cost state,
the first layer's loop breaks immediately, and every predecessor
pointer stays `None`; row 1's argmax (`PAD`) makes the fast path
invalid. -/
def c2_unreachable_matrix : List (List ℚ) := [row_of [(0, 1)], row_of [(0, 1)]]

/-- Probability matrix where the only grammar path to an end-compatible
state carries probability zero: row 1 prefers `PAD` (3/5) over `B-ROOT`
(2/5) so the fallback runs; row 2 puts all mass on `M-ROOT` (code 17),
so every admissible end state has probability 0 (infinite cost) at the
final layer — but `E-ROOT` (code 12) received a predecessor pointer
from a zero-probability first-write. -/
def c2_matrix : List (List ℚ) :=
  [row_of [(1, 1)], row_of [(0, 3/5), (7, 2/5)], row_of [(17, 1)]]

/-- Probability matrix whose row-0 argmax is `PAD` while the
content-row argmax sequence `S-ROOT` is grammatically valid. -/
def c6_matrix : List (List ℚ) := [row_of [(0, 1)], row_of [(23, 1)]]

/-- A probability matrix whose row 0 prefers `BEGIN` and whose content
row prefers the valid single-morpheme label `S-ROOT`. -/
def c6_fast_matrix : List (List ℚ) := [row_of [(1, 1)], row_of [(23, 1)]]

/-- Probability matrix of shape `(0 + 2) × 25` for the empty-word
witness. -/
def c7_matrix : List (List ℚ) := [row_of [(1, 1)], row_of [(0, 1)]]

/-! ## Theorems -/

/-- Generalized span-coverage invariant of the collection loop: the
concatenation of the flushed morphemes equals the running accumulator
followed by the character prefix up to the last end label, and is empty
when no end label occurs. -/
theorem morphemes_loop_flatten (E : List String) :
    ∀ (pairs : List (Char × String)) (acc : List Char),
      (morphemes_loop E pairs acc).1.flatten =
        if last_end_count E (pairs.map Prod.snd) ≠ 0 then
          acc ++ (pairs.map Prod.fst).take (last_end_count E (pairs.map Prod.snd))
        else []
  | [], acc => by simp [morphemes_loop, last_end_count]
  | (c, l) :: rest, acc => by
    by_cases hl : l ∈ E <;> by_cases hk : last_end_count E (rest.map Prod.snd) = 0 <;>
      simp [morphemes_loop, last_end_count, hl, hk, morphemes_loop_flatten E rest,
        List.append_assoc]

/-- C10: for a word and a label list of the same length, the
concatenation of the morpheme strings returned by `labels_to_morphemes`
is exactly the prefix of the word ending at the last position whose
label lies in the active end-label set; characters after the last end
label appear in no returned morpheme (when no label is an end label the
prefix is empty). -/
theorem labels_to_morphemes_cover (use_morpheme_types : Bool)
    (word : List Char) (labels : List String)
    (hlen : labels.length = word.length) :
    (labels_to_morphemes use_morpheme_types word labels none false false).map
        (fun r => r.1.flatten) =
      some (word.take (last_end_count (end_labels_for use_morpheme_types) labels)) := by
  have hzf : (word.zip labels).map Prod.fst = word :=
    List.map_fst_zip _ _ (le_of_eq hlen.symm)
  have hzs : (word.zip labels).map Prod.snd = labels :=
    List.map_snd_zip _ _ (le_of_eq hlen)
  by_cases h : last_end_count (end_labels_for use_morpheme_types) labels = 0 <;>
    simp [labels_to_morphemes, morphemes_loop_flatten, hzf, hzs, h, List.take_of_length_le]

/-- Witness for `labels_to_morphemes_cover` at a concrete two-letter
word fully covered by `B-ROOT, E-ROOT`. -/
theorem labels_to_morphemes_cover_witness :
    (["B-ROOT", "E-ROOT"] : List String).length = (['a', 'b'] : List Char).length ∧
    (labels_to_morphemes true ['a', 'b'] ["B-ROOT", "E-ROOT"] none false false).map
        (fun r => r.1.flatten) =
      some (['a', 'b'].take (last_end_count (end_labels_for true) ["B-ROOT", "E-ROOT"])) :=
  ⟨by decide, labels_to_morphemes_cover true ['a', 'b'] ["B-ROOT", "E-ROOT"] (by decide)⟩

/-- C8: calling `labels_to_morphemes` with `return_probs = True` but
`probs = None` never raises: the probability computation is disabled
for that call, the result equals that of the corresponding
`return_probs = False` call, and carries no morpheme-probability
component. -/
theorem labels_to_morphemes_no_probs (use_morpheme_types : Bool)
    (word : List Char) (labels : List String) (return_types : Bool) :
    labels_to_morphemes use_morpheme_types word labels none true return_types =
      labels_to_morphemes use_morpheme_types word labels none false return_types ∧
    ∃ morphemes mtypes,
      labels_to_morphemes use_morpheme_types word labels none true return_types =
        some (morphemes, none, mtypes) :=
  ⟨rfl, ⟨_, _, rfl⟩⟩

/-- C3 counterexample: `get_next_morpheme` returns the empty successor
list on the in-alphabet label `E-POSTFIX`, which is not the terminal
`END` label (the `otherwise` branch of `get_next_morpheme_types` gives
POSTFIX the empty slice `MORPHEMES[6:6]`). -/
theorem get_next_morpheme_empty_not_END :
    get_next_morpheme "E-POSTFIX" = some [] ∧ "E-POSTFIX" ∈ target_symbols_ ∧
      "E-POSTFIX" ≠ "END" := by decide

/-- C3 amended: over the label alphabet, the successor list returned by
`get_next_morpheme` is empty iff the label is the terminal `END` label
or the closing POSTFIX label `E-POSTFIX` (on the reserved labels `PAD`
and `UNKNOWN` the function raises instead of returning). -/
theorem get_next_morpheme_empty_iff (l : String) (hl : l ∈ target_symbols_) :
    get_next_morpheme l = some [] ↔ l = "END" ∨ l = "E-POSTFIX" := by
  have h : ∀ x ∈ target_symbols_,
      get_next_morpheme x = some [] ↔ x = "END" ∨ x = "E-POSTFIX" := by decide
  exact h l hl

/-- Witness for `get_next_morpheme_empty_iff` at the terminal label. -/
theorem get_next_morpheme_empty_iff_witness :
    "END" ∈ target_symbols_ ∧
      (get_next_morpheme "END" = some [] ↔ "END" = "END" ∨ "END" = "E-POSTFIX") :=
  ⟨by decide, get_next_morpheme_empty_iff "END" (by decide)⟩

/-- Values returned by `py_get` are members of the list. -/
theorem py_get_mem {l : List ℕ} {i : ℤ} {v : ℕ} (h : py_get l i = some v) : v ∈ l := by
  unfold py_get at h
  split at h
  · exact List.get?_mem h
  · split at h
    · exact List.get?_mem h
    · cases h

/-- Evaluating `py_get` at Python index `-1` returns the last element. -/
theorem py_get_neg_one {s : List ℕ} (hs : s ≠ []) : py_get s (-1) = s.getLast? := by
  have hlen : 0 < s.length := List.length_pos.mpr hs
  have h1 : ¬ ((0 : ℤ) ≤ -1) := by norm_num
  have h2 : ((-(-1 : ℤ)).toNat) = 1 := by norm_num
  simp only [py_get, h1, if_false, h2]
  rw [if_pos (by omega)]
  exact (List.getLast?_eq_get? s).symm

/-- Evaluating `py_get` at a level of the form `q - 1` succeeds on a nonempty list
whenever `q ≤ length`, and at `q = length` it returns the last element. -/
theorem py_get_level {s : List ℕ} (q : ℕ) (hs : s ≠ []) (hq : q ≤ s.length) :
    ∃ v, py_get s ((q : ℤ) - 1) = some v ∧ v ∈ s ∧
      (q = s.length → s.getLast? = some v) := by
  have hlen : 0 < s.length := List.length_pos.mpr hs
  cases q with
  | zero =>
    refine ⟨s.getLast hs, ?_, List.getLast_mem hs, fun h0 => by omega⟩
    have h2 : (((0 : ℕ) : ℤ) - 1) = (-1 : ℤ) := by norm_num
    rw [h2, py_get_neg_one hs, List.getLast?_eq_getLast s hs]
  | succ q' =>
    have hlt : q' < s.length := by omega
    have h2 : py_get s ((↑(q' + 1) : ℤ) - 1) = s.get? q' := by
      have hc : ((↑(q' + 1) : ℤ) - 1) = (q' : ℤ) := by push_cast; ring
      rw [hc]
      simp only [py_get, if_pos (Int.natCast_nonneg q'), Int.toNat_natCast]
    refine ⟨s.get ⟨q', hlt⟩, ?_, List.get_mem _ _ _, ?_⟩
    · rw [h2]; exact List.get?_eq_get hlt
    · intro hq'
      rw [List.getLast?_eq_get?]
      have h3 : s.length - 1 = q' := by omega
      rw [h3]
      exact List.get?_eq_get hlt

/-- In an ascending list every element is bounded by the last one. -/
theorem sorted_le_getLast? : ∀ {l : List ℕ}, l.Sorted (· ≤ ·) →
    ∀ {x : ℕ}, x ∈ l → ∀ {t : ℕ}, l.getLast? = some t → x ≤ t := by
  intro l
  induction l with
  | nil => intro _ x hx; cases hx
  | cons a l ih =>
    intro hs x hx t ht
    rcases List.sorted_cons.mp hs with ⟨ha, hl⟩
    cases l with
    | nil =>
      rcases List.mem_singleton.mp hx with rfl
      cases ht
      exact le_refl _
    | cons b l' =>
      rw [List.getLast?_cons_cons] at ht
      rcases List.mem_cons.mp hx with rfl | hx'
      · exact Nat.le_trans (ha t (List.mem_of_getLast?_eq_some ht)) (le_refl _)
      · exact ih hl hx' ht

/-- Insertion point `bisect_left` stays within bounds as soon as some element is `≥ x`. -/
theorem bisect_left_lt_length {l : List ℕ} {x y : ℕ} (hy : y ∈ l) (hxy : x ≤ y) :
    bisect_left l x < l.length := by
  unfold bisect_left
  rcases Nat.lt_or_ge (l.takeWhile (fun z => decide (z < x))).length l.length with h | h
  · exact h
  · exfalso
    have hsub : List.Sublist (l.takeWhile (fun z => decide (z < x))) l :=
      List.takeWhile_sublist _
    have hself : l.takeWhile (fun z => decide (z < x)) = l :=
      hsub.eq_of_length_le h
    have := List.takeWhile_eq_self_iff.mp hself y hy
    simp only [decide_eq_true_eq] at this
    omega

/-- The element at the insertion point bounds `x` from above. -/
theorem le_getD_bisect_left : ∀ {l : List ℕ} {x : ℕ},
    bisect_left l x < l.length → x ≤ l.getD (bisect_left l x) 0 := by
  intro l
  induction l with
  | nil => intro x h; simp [bisect_left] at h
  | cons a l ih =>
    intro x h
    by_cases ha : a < x
    · have hb : bisect_left (a :: l) x = bisect_left l x + 1 := by
        simp [bisect_left, List.takeWhile_cons_of_pos, ha]
      rw [hb] at h ⊢
      simpa using ih (by simpa using h)
    · have hb : bisect_left (a :: l) x = 0 := by
        simp [bisect_left, List.takeWhile_cons_of_neg, ha]
      rw [hb]
      simpa using Nat.le_of_not_lt ha

/-- In-range `append_at` is `List.set` with the appended element. -/
theorem append_at_eq_set {v : ℕ} : ∀ {idx : ℕ} {l : List (List ℕ)}, idx < l.length →
    append_at idx v l = some (l.set idx (l.getD idx [] ++ [v])) := by
  intro idx
  induction idx with
  | zero =>
    intro l h
    cases l with
    | nil => simp at h
    | cons b bs => simp [append_at]
  | succ j ih =>
    intro l h
    cases l with
    | nil => simp at h
    | cons b bs =>
      have := ih (l := bs) (by simpa using h)
      simp [append_at, this]

/-- Appending inside one cell permutes the flattening by one element. -/
theorem flatten_set_append : ∀ {l : List (List ℕ)} {idx v : ℕ}, idx < l.length →
    (l.set idx (l.getD idx [] ++ [v])).flatten.Perm (l.flatten ++ [v]) := by
  intro l
  induction l with
  | nil => intro idx v h; simp at h
  | cons b bs ih =>
    intro idx v h
    cases idx with
    | zero =>
      simp only [List.set, List.getD, List.flatten_cons, List.getElem?_cons_zero,
        Option.getD_some, List.append_assoc]
      exact (@List.perm_append_comm _ [v] bs.flatten).append_left b
    | succ j =>
      have hj : j < bs.length := by simpa using h
      have ihj := @ih j v hj
      simp only [List.set, List.getD, List.flatten_cons, List.getElem?_cons_succ] at *
      simpa [List.append_assoc] using ihj.append_left b

/-- The `make_bucket_lengths` loop distributes over concatenation of
the index list. -/
theorem make_bucket_lengths_go_append (s : List ℕ) (m K : ℕ) (is1 is2 : List ℕ) :
    ∀ st, make_bucket_lengths_go s m K (is1 ++ is2) st =
      (make_bucket_lengths_go s m K is1 st).bind (make_bucket_lengths_go s m K is2) := by
  induction is1 with
  | nil => intro st; rfl
  | cons i is ih =>
    intro st
    simp only [List.cons_append, make_bucket_lengths_go]
    rcases hp : py_get s (((m * (i + 1)) / K : ℕ) - (1 : ℤ)) with _ | c
    · rfl
    · by_cases hlt : st.1 < c <;> simp [hlt, ih]

/-- Invariant preservation and success of the `make_bucket_lengths`
loop: the accumulated threshold list stays strictly increasing and
bounded by the running maximum `st.1`, which is itself bounded by `t`
and present in the accumulator once nonzero. -/
theorem make_bucket_lengths_go_spec (s : List ℕ) (m K t : ℕ)
    (ht : ∀ v ∈ s, v ≤ t) :
    ∀ (is : List ℕ) (st : ℕ × List ℕ),
      (∀ i ∈ is, ∃ v, py_get s (((m * (i + 1)) / K : ℕ) - (1 : ℤ)) = some v) →
      List.Pairwise (· < ·) st.2 → (∀ x ∈ st.2, x ≤ st.1) → st.1 ≤ t →
      (st.1 = 0 ∨ st.1 ∈ st.2) →
      ∃ st', make_bucket_lengths_go s m K is st = some st' ∧
        List.Pairwise (· < ·) st'.2 ∧ (∀ x ∈ st'.2, x ≤ st'.1) ∧ st'.1 ≤ t ∧
        (st'.1 = 0 ∨ st'.1 ∈ st'.2) ∧ st.1 ≤ st'.1 := by
  intro is
  induction is with
  | nil => intro st _ h1 h2 h3 h4; exact ⟨st, rfl, h1, h2, h3, h4, le_refl _⟩
  | cons i is ih =>
    intro st hpy h1 h2 h3 h4
    rcases hpy i (List.mem_cons_self i is) with ⟨c, hc⟩
    have hct : c ≤ t := ht c (py_get_mem hc)
    simp only [make_bucket_lengths_go, hc]
    by_cases hlt : st.1 < c
    · rw [if_pos hlt]
      have h1' : List.Pairwise (· < ·) (st.2 ++ [c]) := by
        rw [List.pairwise_append]
        refine ⟨h1, List.pairwise_singleton _ _, fun x hx y hy => ?_⟩
        rcases List.mem_singleton.mp hy with rfl
        exact Nat.lt_of_le_of_lt (h2 x hx) hlt
      have h2' : ∀ x ∈ st.2 ++ [c], x ≤ c := by
        intro x hx
        rcases List.mem_append.mp hx with hx | hx
        · exact Nat.le_of_lt (Nat.lt_of_le_of_lt (h2 x hx) hlt)
        · rcases List.mem_singleton.mp hx with rfl; exact le_refl _
      rcases ih (c, st.2 ++ [c]) (fun j hj => hpy j (List.mem_cons_of_mem _ hj))
          h1' h2' hct (Or.inr (List.mem_append.mpr (Or.inr (List.mem_singleton.mpr rfl))))
        with ⟨st', hgo, p1, p2, p3, p4, p5⟩
      exact ⟨st', hgo, p1, p2, p3, p4, Nat.le_trans (Nat.le_of_lt hlt) p5⟩
    · rw [if_neg hlt]
      exact ih st (fun j hj => hpy j (List.mem_cons_of_mem _ hj)) h1 h2 h3 h4

/-- Running `make_bucket_lengths` on a list containing a positive length, with a
positive bucket count: it succeeds, the thresholds are strictly
increasing, and the maximal input length occurs among them. -/
theorem make_bucket_lengths_spec (lengths : List ℕ) (K : ℕ)
    (hK : 0 < K) (hpos : ∃ L ∈ lengths, 0 < L) :
    ∃ bl t, make_bucket_lengths lengths K = some bl ∧
      List.Pairwise (· < ·) bl ∧ t ∈ bl ∧ (∀ L ∈ lengths, L ≤ t) ∧ 0 < t := by
  rcases hpos with ⟨L0, hL0, hL0pos⟩
  set s := lengths.insertionSort (· ≤ ·) with hsdef
  have hperm : s.Perm lengths := List.perm_insertionSort _ _
  have hsne : s ≠ [] := by
    intro h0
    rw [h0] at hperm
    rw [← hperm.mem_iff] at hL0
    cases hL0
  have hslen : s.length = lengths.length := hperm.length_eq
  set t := s.getLast hsne with htdef
  have hlast : s.getLast? = some t := List.getLast?_eq_getLast s hsne
  have hsorted : s.Sorted (· ≤ ·) := List.sorted_insertionSort _ _
  have hub : ∀ L ∈ lengths, L ≤ t := by
    intro L hL
    exact sorted_le_getLast? hsorted (hperm.mem_iff.mpr hL) hlast
  have htpos : 0 < t := Nat.lt_of_lt_of_le hL0pos (hub L0 hL0)
  have hts : ∀ v ∈ s, v ≤ t := fun v hv =>
    hub v (hperm.mem_iff.mp hv)
  set m := lengths.length with hmdef
  have hpy : ∀ i ∈ List.range K, ∃ v,
      py_get s (((m * (i + 1)) / K : ℕ) - (1 : ℤ)) = some v := by
    intro i hi
    have hiK : i + 1 ≤ K := Nat.succ_le_of_lt (List.mem_range.mp hi)
    have hq : m * (i + 1) / K ≤ s.length := by
      rw [hslen]
      calc m * (i + 1) / K ≤ m * K / K :=
            Nat.div_le_div_right (Nat.mul_le_mul_left m hiK)
        _ = m := Nat.mul_div_cancel m hK
    rcases py_get_level (m * (i + 1) / K) hsne hq with ⟨v, hv, _, _⟩
    exact ⟨v, hv⟩
  obtain ⟨K', rfl⟩ : ∃ K', K = K' + 1 := ⟨K - 1, by omega⟩
  have hrange : List.range (K' + 1) = List.range K' ++ [K'] := List.range_succ K'
  rcases make_bucket_lengths_go_spec s m (K' + 1) t hts (List.range K') (0, [])
      (fun i hi => hpy i (by rw [hrange]; exact List.mem_append.mpr (Or.inl hi)))
      List.Pairwise.nil (by intro x hx; cases hx) (Nat.zero_le t) (Or.inl rfl)
    with ⟨st1, hgo1, q1, q2, q3, q4, _⟩
  have hqm : m * (K' + 1) / (K' + 1) = m := Nat.mul_div_cancel m (Nat.succ_pos K')
  have hlastpy : py_get s (((m * (K' + 1)) / (K' + 1) : ℕ) - (1 : ℤ)) = some t := by
    rcases py_get_level (m * (K' + 1) / (K' + 1)) hsne (by rw [hqm, hslen]) with
      ⟨v, hv, _, hvt⟩
    have : s.getLast? = some v := hvt (by rw [hqm, hslen])
    rw [hlast] at this
    cases this
    exact hv
  have hfinal : ∃ bl, make_bucket_lengths_go s m (K' + 1) [K'] st1 = some (t, bl) ∧
      List.Pairwise (· < ·) bl ∧ t ∈ bl := by
    simp only [make_bucket_lengths_go, hlastpy]
    by_cases hlt : st1.1 < t
    · rw [if_pos hlt]
      refine ⟨st1.2 ++ [t], rfl, ?_, List.mem_append.mpr (Or.inr (List.mem_singleton.mpr rfl))⟩
      rw [List.pairwise_append]
      refine ⟨q1, List.pairwise_singleton _ _, fun x hx y hy => ?_⟩
      rcases List.mem_singleton.mp hy with rfl
      exact Nat.lt_of_le_of_lt (q2 x hx) hlt
    · rw [if_neg hlt]
      have hst1 : st1.1 = t := Nat.le_antisymm q3 (Nat.le_of_not_lt hlt)
      have hmem : st1.1 ∈ st1.2 := by
        rcases q4 with h0 | hmem
        · omega
        · exact hmem
      exact ⟨st1.2, by rw [← hst1], q1, hst1 ▸ hmem⟩
  rcases hfinal with ⟨bl, hgo2, hbl1, hbl2⟩
  refine ⟨bl, t, ?_, hbl1, hbl2, hub, htpos⟩
  unfold make_bucket_lengths
  rw [← hsdef, ← hmdef, hrange, make_bucket_lengths_go_append, hgo1]
  simp [hgo2]

/-- Reading `getD` at the written position after `List.set`. -/
theorem getD_set_self {α : Type} : ∀ {l : List α} {j : ℕ} (a d : α), j < l.length →
    (l.set j a).getD j d = a := by
  intro l
  induction l with
  | nil => intro j a d h; simp at h
  | cons b bs ih =>
    intro j a d h
    cases j with
    | zero => simp
    | succ j' => simpa using ih a d (by simpa using h)

/-- Reading `getD` at any other position after `List.set`. -/
theorem getD_set_ne {α : Type} : ∀ {l : List α} {j j' : ℕ}, j ≠ j' → ∀ (a d : α),
    (l.set j a).getD j' d = l.getD j' d := by
  intro l
  induction l with
  | nil => intro j j' _ a d; simp
  | cons b bs ih =>
    intro j j' hne a d
    cases j with
    | zero =>
      cases j' with
      | zero => exact absurd rfl hne
      | succ k => simp
    | succ j0 =>
      cases j' with
      | zero => simp
      | succ k => simpa using ih (fun h => hne (by rw [h])) a d

/-- Success and invariants of the assignment loop: the result keeps the
bucket count, its flattening appends exactly the enumerated indices,
and every newly placed index satisfies the threshold bound of its
bucket. -/
theorem assign_go_spec (lengths0 bl : List ℕ) (t : ℕ) (htmem : t ∈ bl)
    (hub : ∀ L ∈ lengths0, L ≤ t) :
    ∀ (Ls : List ℕ) (i : ℕ) (idxs : List (List ℕ)),
      idxs.length = bl.length →
      (∀ k, k < Ls.length → Ls.getD k 0 = lengths0.getD (i + k) 0) →
      (∀ L ∈ Ls, L ∈ lengths0) →
      ∃ r, assign_go bl Ls i idxs = some r ∧ r.length = bl.length ∧
        r.flatten.Perm (idxs.flatten ++ List.range' i Ls.length) ∧
        (∀ j, ∀ x ∈ r.getD j [], x ∈ idxs.getD j [] ∨
          lengths0.getD x 0 ≤ bl.getD j 0) := by
  intro Ls
  induction Ls with
  | nil =>
    intro i idxs hlen _ _
    exact ⟨idxs, rfl, hlen, by simp, fun j x hx => Or.inl hx⟩
  | cons L rest ih =>
    intro i idxs hlen hsuf hmem
    have hLmem : L ∈ lengths0 := hmem L (List.mem_cons_self _ _)
    have hb : bisect_left bl L < bl.length := bisect_left_lt_length htmem (hub L hLmem)
    have hb' : bisect_left bl L < idxs.length := by rw [hlen]; exact hb
    set j0 := bisect_left bl L with hj0
    set idxs' := idxs.set j0 (idxs.getD j0 [] ++ [i]) with hidxs'
    have hstep : assign_go bl (L :: rest) i idxs = assign_go bl rest (i + 1) idxs' := by
      simp only [assign_go, append_at_eq_set hb']
    have hlen' : idxs'.length = bl.length := by
      rw [hidxs', List.length_set]; exact hlen
    have hsuf' : ∀ k, k < rest.length → rest.getD k 0 = lengths0.getD (i + 1 + k) 0 := by
      intro k hk
      have h1 := hsuf (k + 1) (by simpa using Nat.succ_lt_succ hk)
      rw [List.getD_cons_succ] at h1
      rw [h1]
      congr 1
      omega
    rcases ih (i + 1) idxs' hlen' hsuf' (fun L' hL' => hmem L' (List.mem_cons_of_mem _ hL'))
      with ⟨r, hr, hrlen, hperm, hbound⟩
    refine ⟨r, by rw [hstep]; exact hr, hrlen, ?_, ?_⟩
    · refine hperm.trans ?_
      have h2 : idxs'.flatten.Perm (idxs.flatten ++ [i]) := flatten_set_append hb'
      refine (h2.append_right (List.range' (i + 1) rest.length)).trans ?_
      rw [List.append_assoc]
      exact List.Perm.refl _
    · intro j x hx
      rcases hbound j x hx with hx' | hbd
      · by_cases hjj : j0 = j
        · subst hjj
          rw [hidxs', getD_set_self _ _ hb'] at hx'
          rcases List.mem_append.mp hx' with hold | hnew
          · exact Or.inl hold
          · rcases List.mem_singleton.mp hnew with rfl
            have hL0 : L = lengths0.getD x 0 := by
              have := hsuf 0 (by simp)
              simpa using this
            exact Or.inr (by rw [← hL0]; exact le_getD_bisect_left hb)
        · rw [hidxs', getD_set_ne hjj] at hx'
          exact Or.inl hx'
      · exact Or.inr hbd

/-- The number of Python range steps needed to cover `stop`. -/
theorem length_py_range_step (n S : ℕ) : (py_range_step n S).length = (n + S - 1) / S := by
  simp [py_range_step]

/-- An empty bucket produces no chunks. -/
theorem chunks_of_nil {S : ℕ} (hS : 0 < S) : chunks_of S [] = [] := by
  have h : (S - 1) / S = 0 := Nat.div_eq_of_lt (by omega)
  simp [chunks_of, py_range_step, h]

/-- The chunk count of a nonempty bucket is `(len - 1) / S + 1`, as used
by the threshold-replication side of the split. -/
theorem length_chunks_of {S : ℕ} (hS : 0 < S) (ci : List ℕ) (hne : ci ≠ []) :
    (chunks_of S ci).length = (ci.length - 1) / S + 1 := by
  have hl : 0 < ci.length := List.length_pos.mpr hne
  simp only [chunks_of, List.length_map, length_py_range_step]
  have h1 : ci.length + S - 1 = (ci.length - 1) + S := by omega
  rw [h1, Nat.add_div_right _ hS]

/-- A nonempty bucket's chunk list starts with its first `S` elements. -/
theorem chunks_of_cons {S : ℕ} (hS : 0 < S) (ci : List ℕ) (hne : ci ≠ []) :
    chunks_of S ci = ci.take S :: chunks_of S (ci.drop S) := by
  have hl : 0 < ci.length := List.length_pos.mpr hne
  have hcount : (ci.length + S - 1) / S = ((ci.drop S).length + S - 1) / S + 1 := by
    rw [List.length_drop]
    rcases Nat.le_total ci.length S with hls | hls
    · have h1 : ci.length - S = 0 := by omega
      rw [h1]
      have h2 : (0 + S - 1) / S = 0 := Nat.div_eq_of_lt (by omega)
      rw [h2]
      have h3 : ci.length + S - 1 = (ci.length - 1) + S := by omega
      rw [h3, Nat.add_div_right _ hS]
      have h4 : (ci.length - 1) / S = 0 := Nat.div_eq_of_lt (by omega)
      omega
    · have h3 : ci.length + S - 1 = (ci.length - S + S - 1) + S := by omega
      rw [h3, Nat.add_div_right _ hS]
  simp only [chunks_of, py_range_step, hcount, List.range_succ_eq_map, List.map_cons,
    List.map_map, Nat.zero_mul, List.drop_zero]
  congr 1
  refine List.map_congr_left (fun k hk => ?_)
  simp only [Function.comp]
  rw [List.drop_drop]
  congr 2
  rw [Nat.succ_mul]
  omega

/-- The chunks of a bucket flatten back to the bucket. -/
theorem flatten_chunks_of_aux {S : ℕ} (hS : 0 < S) :
    ∀ (fuel : ℕ) (ci : List ℕ), ci.length ≤ fuel → (chunks_of S ci).flatten = ci := by
  intro fuel
  induction fuel with
  | zero =>
    intro ci h
    have h0 : ci = [] := List.length_eq_zero.mp (Nat.le_zero.mp h)
    subst h0
    simp [chunks_of_nil hS]
  | succ f ih =>
    intro ci h
    rcases eq_or_ne ci [] with rfl | hne
    · simp [chunks_of_nil hS]
    · have hl : 0 < ci.length := List.length_pos.mpr hne
      rw [chunks_of_cons hS ci hne, List.flatten_cons,
        ih (ci.drop S) (by rw [List.length_drop]; omega)]
      exact List.take_append_drop S ci

/-- The chunks of a bucket flatten back to the bucket. -/
theorem flatten_chunks_of {S : ℕ} (hS : 0 < S) (ci : List ℕ) :
    (chunks_of S ci).flatten = ci := flatten_chunks_of_aux hS ci.length ci (le_refl _)

/-- Every element of a chunk belongs to the bucket it was cut from. -/
theorem mem_of_mem_chunks_of {S : ℕ} {ci ch : List ℕ} (hch : ch ∈ chunks_of S ci) :
    ∀ x ∈ ch, x ∈ ci := by
  intro x hx
  rcases List.mem_map.mp hch with ⟨start, _, rfl⟩
  exact List.mem_of_mem_drop (List.mem_of_mem_take hx)

/-- Zipping two flattenings whose segments have matching lengths is the
flattening of the segmentwise zips. -/
theorem zip_flatten_of_forall₂ {α β : Type} :
    ∀ {As : List (List α)} {Bs : List (List β)},
      List.Forall₂ (fun a b => a.length = b.length) As Bs →
      As.flatten.zip Bs.flatten = ((As.zip Bs).map (fun p => p.1.zip p.2)).flatten := by
  intro As Bs h
  induction h with
  | nil => rfl
  | cons hab htail ih =>
    simp only [List.flatten_cons, List.zip_cons_cons, List.map_cons]
    rw [List.zip_append hab, ih]

/-- Zipping a replicated threshold against a list pairs the threshold
with every element. -/
theorem replicate_zip {α β : Type} (x : α) :
    ∀ (ys : List β), (List.replicate ys.length x).zip ys = ys.map (fun y => (x, y)) := by
  intro ys
  induction ys with
  | nil => rfl
  | cons y ys ih => simpa [List.replicate_succ] using ih

/-- Mapping two functions over one list yields `Forall₂` of a pointwise
relation. -/
theorem forall₂_map_map {α β γ : Type} (f : α → β) (g : α → γ) (R : β → γ → Prop) :
    ∀ (l : List α), (∀ x ∈ l, R (f x) (g x)) → List.Forall₂ R (l.map f) (l.map g) := by
  intro l
  induction l with
  | nil => intro _; exact List.Forall₂.nil
  | cons a l ih =>
    intro h
    exact List.Forall₂.cons (h a (List.mem_cons_self _ _))
      (ih (fun x hx => h x (List.mem_cons_of_mem _ hx)))

/-- Filtering out elements mapped to `[]` does not change a flattening. -/
theorem flatten_map_filter_ne_nil {α γ : Type} (g : α → List γ) (q : α → Bool)
    (hq : ∀ x, q x = false → g x = []) :
    ∀ (l : List α), ((l.filter q).map g).flatten = (l.map g).flatten := by
  intro l
  induction l with
  | nil => rfl
  | cons a l ih =>
    rcases hqa : q a with _ | _
    · simp [List.filter_cons, hqa, hq a hqa, ih]
    · simp [List.filter_cons, hqa, ih]

/-- Membership in a zip exposes a common position with `getD` access. -/
theorem mem_zip_getD {al : List ℕ} {bl' : List (List ℕ)} :
    ∀ {p : ℕ × List ℕ}, p ∈ al.zip bl' →
      ∃ j, j < al.length ∧ p.1 = al.getD j 0 ∧ p.2 = bl'.getD j [] := by
  induction al generalizing bl' with
  | nil => intro p hp; simp at hp
  | cons a al ih =>
    intro p hp
    cases bl' with
    | nil => simp at hp
    | cons b bl'' =>
      rcases List.mem_cons.mp hp with rfl | hp'
      · exact ⟨0, by simp, rfl, rfl⟩
      · rcases ih hp' with ⟨j, hj, h1, h2⟩
        exact ⟨j + 1, by simpa using Nat.succ_lt_succ hj, by simpa using h1,
          by simpa using h2⟩

/-- Reading `getD` of the constant-`[]` initialization is always `[]`. -/
theorem getD_map_const_nil : ∀ (bl : List ℕ) (j : ℕ),
    (bl.map (fun _ => ([] : List ℕ))).getD j [] = [] := by
  intro bl
  induction bl with
  | nil => intro j; simp
  | cons a l ih =>
    intro j
    cases j with
    | zero => simp
    | succ j' => simpa using ih j'

/-- C4 amended: on a length list containing a positive entry, a positive
bucket count, and `max_bucket_size` either `-1` or positive,
`collect_buckets` succeeds; the bucket index-sets together are a
permutation of the full index range (each index exactly once); every
assigned index's length is bounded by its bucket's threshold; the
thresholds are non-decreasing, and strictly increasing in the
non-splitting mode `max_bucket_size = -1`. -/
theorem collect_buckets_spec (lengths : List ℕ) (K : ℕ) (S : ℤ)
    (hpos : ∃ L ∈ lengths, 0 < L) (hK : 0 < K) (hS : S = -1 ∨ 1 ≤ S) :
    ∃ bs, collect_buckets lengths K S = some bs ∧
      ((bs.map Prod.snd).flatten).Perm (List.range lengths.length) ∧
      (∀ p ∈ bs, ∀ i ∈ p.2, lengths.getD i 0 ≤ p.1) ∧
      List.Pairwise (· ≤ ·) (bs.map Prod.fst) ∧
      (S = -1 → List.Pairwise (· < ·) (bs.map Prod.fst)) := by
  rcases make_bucket_lengths_spec lengths K hK hpos with
    ⟨bl, t, hmbl, hblpair, htmem, hub, htpos⟩
  rcases assign_go_spec lengths bl t htmem hub lengths 0 (bl.map (fun _ => ([] : List ℕ)))
      (List.length_map _ _) (fun k hk => by simp) (fun L hL => hL)
    with ⟨r, hr, hrlen, hperm0, hbound0⟩
  have hflat0 : (bl.map (fun _ => ([] : List ℕ))).flatten = [] := by simp
  have hperm : r.flatten.Perm (List.range lengths.length) := by
    rw [hflat0, List.nil_append] at hperm0
    rw [List.range_eq_range']
    exact hperm0
  have hbound : ∀ j, ∀ x ∈ r.getD j [], lengths.getD x 0 ≤ bl.getD j 0 := by
    intro j x hx
    rcases hbound0 j x hx with h | h
    · rw [getD_map_const_nil] at h; cases h
    · exact h
  have hFfst : (bl.zip r).map Prod.fst = bl := List.map_fst_zip bl r (le_of_eq hrlen.symm)
  have hFsnd : (bl.zip r).map Prod.snd = r := List.map_snd_zip bl r (le_of_eq hrlen)
  have hpairF : ∀ p ∈ bl.zip r, ∀ i ∈ p.2, lengths.getD i 0 ≤ p.1 := by
    intro p hp i hi
    rcases mem_zip_getD hp with ⟨j, hj, h1, h2⟩
    rw [h1]
    exact hbound j i (h2 ▸ hi)
  have hFpair : List.Pairwise (fun p p' : ℕ × List ℕ => p.1 < p'.1) (bl.zip r) := by
    have h := hblpair
    rw [← hFfst] at h
    exact List.pairwise_map.mp h
  have hq_nil : ∀ p : ℕ × List ℕ, (decide (p.2.length ≠ 0)) = false → p.2 = [] := by
    intro p hp
    simp only [decide_eq_false_iff_not, Decidable.not_not] at hp
    exact List.length_eq_zero.mp hp
  rcases hS with rfl | hSpos
  · refine ⟨(bl.zip r).filter (fun p => p.2.length ≠ 0), ?_, ?_, ?_, ?_, ?_⟩
    · simp only [collect_buckets, hmbl, hr]
      simp
    · have h1 := flatten_map_filter_ne_nil Prod.snd (fun p => decide (p.2.length ≠ 0))
        hq_nil (bl.zip r)
      rw [h1, hFsnd]
      exact hperm
    · exact fun p hp => hpairF p (List.mem_of_mem_filter hp)
    · have hsub := (List.filter_sublist (p := fun p : ℕ × List ℕ => decide (p.2.length ≠ 0))
        (bl.zip r)).map Prod.fst
      rw [hFfst] at hsub
      exact (List.Pairwise.sublist hsub hblpair).imp (fun h => Nat.le_of_lt h)
    · intro _
      have hsub := (List.filter_sublist (p := fun p : ℕ × List ℕ => decide (p.2.length ≠ 0))
        (bl.zip r)).map Prod.fst
      rw [hFfst] at hsub
      exact List.Pairwise.sublist hsub hblpair
  · have hSN1 : 0 < S.toNat := by omega
    have hne1 : ¬(S = -1) := by omega
    have hne0 : ¬(S = 0) := by omega
    have hneg : ¬(S < 0) := by omega
    set SN := S.toNat with hSNdef
    set F := (bl.zip r).filter (fun p => p.2.length ≠ 0) with hFdef
    set bl2 := (F.map (fun p => List.replicate ((p.2.length - 1) / SN + 1) p.1)).flatten
      with hbl2
    set idx2 := (r.map (chunks_of SN)).flatten with hidx2
    have hmemne : ∀ p ∈ F, p.2 ≠ [] := by
      intro p hp h0
      have h := List.of_mem_filter hp
      rw [h0] at h
      simp at h
    have h1 : idx2 = (F.map (fun p => chunks_of SN p.2)).flatten := by
      have h1a : r.map (chunks_of SN) = (bl.zip r).map (fun p => chunks_of SN p.2) := by
        conv_lhs => rw [← hFsnd]
        rw [List.map_map]
        rfl
      rw [hidx2, h1a]
      refine (flatten_map_filter_ne_nil (fun p => chunks_of SN p.2)
        (fun p => decide (p.2.length ≠ 0)) ?_ (bl.zip r)).symm
      intro p hp
      show chunks_of SN p.2 = []
      rw [hq_nil p hp, chunks_of_nil hSN1]
    have hf2 : List.Forall₂ (fun a b => a.length = b.length)
        (F.map (fun p => List.replicate ((p.2.length - 1) / SN + 1) p.1))
        (F.map (fun p => chunks_of SN p.2)) := by
      refine forall₂_map_map _ _ _ F ?_
      intro p hp
      rw [List.length_replicate, length_chunks_of hSN1 p.2 (hmemne p hp)]
    have hres : bl2.zip idx2
        = (F.map (fun p => (chunks_of SN p.2).map (fun ch => (p.1, ch)))).flatten := by
      rw [hbl2, h1, zip_flatten_of_forall₂ hf2, List.zip_map', List.map_map]
      congr 1
      refine List.map_congr_left (fun p hp => ?_)
      simp only [Function.comp]
      rw [← length_chunks_of hSN1 p.2 (hmemne p hp)]
      exact replicate_zip p.1 (chunks_of SN p.2)
    refine ⟨(bl2.zip idx2).filter (fun p => p.2.length ≠ 0), ?_, ?_, ?_, ?_, ?_⟩
    · simp only [collect_buckets, hmbl, hr, if_neg hne1, if_neg hne0, if_neg hneg]
    · have hA := flatten_map_filter_ne_nil Prod.snd (fun p => decide (p.2.length ≠ 0))
        hq_nil (bl2.zip idx2)
      rw [hA, hres, List.map_flatten, List.map_map]
      have hper : ∀ p ∈ F,
          (List.map Prod.snd ∘ (fun p : ℕ × List ℕ =>
            (chunks_of SN p.2).map (fun ch => (p.1, ch)))) p = chunks_of SN p.2 := by
        intro p hp
        simp [List.map_map, Function.comp]
      rw [List.map_congr_left hper, List.flatten_flatten, List.map_map]
      have hper2 : ∀ p ∈ F,
          (List.flatten ∘ (fun p : ℕ × List ℕ => chunks_of SN p.2)) p = p.2 := by
        intro p hp
        simp only [Function.comp]
        exact flatten_chunks_of hSN1 p.2
      rw [List.map_congr_left hper2]
      have hB := flatten_map_filter_ne_nil Prod.snd (fun p => decide (p.2.length ≠ 0))
        hq_nil (bl.zip r)
      have hsnd_eta : (F.map (fun p : ℕ × List ℕ => p.2)).flatten
          = (F.map Prod.snd).flatten := rfl
      rw [hsnd_eta, hFdef, hB, hFsnd]
      exact hperm
    · intro p hp i hi
      have hp0 : p ∈ bl2.zip idx2 := List.mem_of_mem_filter hp
      rw [hres] at hp0
      rcases List.mem_flatten.mp hp0 with ⟨gl, hgl, hpgl⟩
      rcases List.mem_map.mp hgl with ⟨p0, hp0F, rfl⟩
      rcases List.mem_map.mp hpgl with ⟨ch, hch, rfl⟩
      exact hpairF p0 (List.mem_of_mem_filter hp0F) i (mem_of_mem_chunks_of hch i hi)
    · have hsub := (List.filter_sublist (p := fun p : ℕ × List ℕ => decide (p.2.length ≠ 0))
        (bl2.zip idx2)).map Prod.fst
      refine List.Pairwise.sublist hsub ?_
      rw [hres, List.map_flatten, List.map_map]
      have hper : ∀ p ∈ F,
          (List.map Prod.fst ∘ (fun p : ℕ × List ℕ =>
            (chunks_of SN p.2).map (fun ch => (p.1, ch)))) p
          = List.replicate (chunks_of SN p.2).length p.1 := by
        intro p hp
        simp [List.map_map, Function.comp, List.map_const']
      rw [List.map_congr_left hper, List.pairwise_flatten]
      constructor
      · intro l hl
        rcases List.mem_map.mp hl with ⟨p, hp, rfl⟩
        rw [List.pairwise_replicate]
        exact Or.inr (le_refl _)
      · have hFne_pair : List.Pairwise (fun p p' : ℕ × List ℕ => p.1 < p'.1) F :=
          List.Pairwise.sublist (List.filter_sublist _) hFpair
        refine List.pairwise_map.mpr (hFne_pair.imp ?_)
        intro a b hab x hx y hy
        rw [List.eq_of_mem_replicate hx, List.eq_of_mem_replicate hy]
        exact Nat.le_of_lt hab
    · intro h
      exact absurd h hne1

/-- Witness for `collect_buckets_spec` at two lengths, two buckets and
no size limit. -/
theorem collect_buckets_spec_witness :
    (∃ L ∈ [1, 2], 0 < L) ∧ 0 < 2 ∧ ((-1 : ℤ) = -1 ∨ 1 ≤ (-1 : ℤ)) ∧
    (∃ bs, collect_buckets [1, 2] 2 (-1) = some bs ∧
      ((bs.map Prod.snd).flatten).Perm (List.range ([1, 2] : List ℕ).length) ∧
      (∀ p ∈ bs, ∀ i ∈ p.2, ([1, 2] : List ℕ).getD i 0 ≤ p.1) ∧
      List.Pairwise (· ≤ ·) (bs.map Prod.fst) ∧
      ((-1 : ℤ) = -1 → List.Pairwise (· < ·) (bs.map Prod.fst))) :=
  ⟨⟨1, by decide, by decide⟩, by decide, Or.inl rfl,
    collect_buckets_spec [1, 2] 2 (-1) ⟨1, by decide, by decide⟩ (by decide) (Or.inl rfl)⟩

/-- C4 counterexample: splitting with `max_bucket_size = 1` produces two
buckets with the same threshold, so the thresholds of the returned
buckets are not strictly increasing. -/
theorem collect_buckets_not_strictly_increasing :
    collect_buckets [1, 1] 1 1 = some [(1, [0]), (1, [1])] ∧
      ¬ List.Pairwise (· < ·) ([(1, [0]), (1, [1])].map Prod.fst) := by decide

/-- C5: the flat-mode encoder's left-boundary write does not keep the
maximum.  Both matches write the left-boundary slot (1, 0) with
integer dictionary counts (stored exactly by the `dtype=int` buffer of
line 366, so no truncation masks the effect); processing only the
first match stores 9 there, but after the second match the slot holds
1: the write `curr_answer[start+1, 0] =
max(curr_answer[start+0, 2], score)` reads the neighboring row's
single-character channel (still 0) instead of the slot being written,
and overwrites the previously stored larger count. -/
theorem make_morpheme_data_simple_overwrites :
    overwrite_example_score ['a', 'b'] = 9 ∧
    overwrite_example_score ['a', 'b', 'c'] = 1 ∧
    mat_get (make_morpheme_data_simple_word (fun _ => [([0], 2)])
      overwrite_example_score 5 ['a', 'b', 'c']) 1 0 = 9 ∧
    mat_get overwrite_example_matrix 1 0 = 1 ∧
    mat_get overwrite_example_matrix 1 0 < max (9 : ℤ) 1 := by
  with_unfolding_all decide

/-- C1: on `c1_matrix` the fallback search returns the label sequence
`S-ROOT, S-END`, which `is_correct_morpheme_sequence` rejects: the
decoder's admissible-end list (network.py line 771) uses the type name
`"END"` while the validity check's last-label list (line 899) contains
the literal `"ENDING"`, which matches no serialized label type.  The
matrix is a genuine probability matrix: rows are non-negative and sum
to 1. -/
theorem decode_best_returns_invalid :
    (decode_best c1_matrix 2).map Prod.fst = some ["S-ROOT", "S-END"] ∧
    is_correct_morpheme_sequence ["S-ROOT", "S-END"] = some false ∧
    (∀ row ∈ c1_matrix, row.foldl (· + ·) 0 = 1 ∧ ∀ p ∈ row, 0 ≤ p) := by
  with_unfolding_all decide

/-- Fold `min_by_cost_aux` returns its seed or a list element. -/
theorem min_by_cost_aux_mem (cs : List ℚ) :
    ∀ (l : List ℕ) (b : ℕ), min_by_cost_aux cs b l = b ∨ min_by_cost_aux cs b l ∈ l := by
  intro l
  induction l with
  | nil => intro b; exact Or.inl rfl
  | cons s rest ih =>
    intro b
    simp only [min_by_cost_aux]
    by_cases h : cs.getD b 0 < cs.getD s 0
    · rw [if_pos h]
      rcases ih s with h1 | h1
      · exact Or.inr (by rw [h1]; exact List.mem_cons_self _ _)
      · exact Or.inr (List.mem_cons_of_mem _ h1)
    · rw [if_neg h]
      rcases ih b with h1 | h1
      · exact Or.inl h1
      · exact Or.inr (List.mem_cons_of_mem _ h1)

/-- The minimum-cost end state is one of the candidates. -/
theorem min_by_cost_mem {cs : List ℚ} {l : List ℕ} {e : ℕ}
    (h : min_by_cost cs l = some e) : e ∈ l := by
  cases l with
  | nil => cases h
  | cons s rest =>
    simp only [min_by_cost] at h
    injection h with h
    rcases min_by_cost_aux_mem cs rest s with h1 | h1
    · rw [← h, h1]; exact List.mem_cons_self _ _
    · rw [← h]; exact List.mem_cons_of_mem _ h1

/-- C2 amended: when the fast path is invalid and no end-compatible
state has a recorded predecessor pointer at the final position (in
particular when no end-compatible state was ever expanded), decoding
fails — the backtracking hits a `None` pointer and the call raises
(`none`), returning no label sequence.  This is an uncaught `TypeError`
rather than a dedicated `DecodeError`; and when a zero-probability
expansion did record a pointer, the decoder instead silently returns
that zero-probability sequence (see the counterexample). -/
theorem decode_best_unreachable_end_fails (probs : List (List ℚ)) (length : ℕ)
    (hinv : (best_path_labels probs length).bind
      (fun bl => is_correct_morpheme_sequence (bl.drop 1)) = some false)
    (hlen : 0 < length)
    (hptr : ∀ e ∈ end_possible_states,
      (run_fallback probs length).map
        (fun p => (p.2.getD length []).getD e none) = some none) :
    decode_best probs length = none := by
  rcases hbl : best_path_labels probs length with _ | bl
  · rw [hbl] at hinv; cases hinv
  · rw [hbl] at hinv
    simp only [Option.some_bind] at hinv
    rcases hfb : run_fallback probs length with _ | cs_sts
    · have h12 := hptr 12 (by decide)
      rw [hfb] at h12
      cases h12
    · obtain ⟨cs, sts⟩ := cs_sts
      rcases hmin : min_by_cost (cs.getLastD []) end_possible_states with _ | e
      · simp only [decode_best, hbl, hinv, hfb, hmin, Bool.false_eq_true, if_false]
      · have hee : e ∈ end_possible_states := min_by_cost_mem hmin
        have hp := hptr e hee
        rw [hfb] at hp
        simp only [Option.map_some'] at hp
        injection hp with hp
        obtain ⟨k, rfl⟩ : ∃ k, length = k + 1 := ⟨length - 1, by omega⟩
        have hback : backtrack sts (k + 1) e = none := by
          simp only [backtrack, hp]
        simp only [decode_best, hbl, hinv, hfb, hmin, hback, Bool.false_eq_true, if_false]

/-- Witness for `decode_best_unreachable_end_fails` on
`c2_unreachable_matrix`. -/
theorem decode_best_unreachable_end_fails_witness :
    ((best_path_labels c2_unreachable_matrix 1).bind
      (fun bl => is_correct_morpheme_sequence (bl.drop 1)) = some false) ∧
    (0 : ℕ) < 1 ∧
    (∀ e ∈ end_possible_states,
      (run_fallback c2_unreachable_matrix 1).map
        (fun p => (p.2.getD 1 []).getD e none) = some none) ∧
    decode_best c2_unreachable_matrix 1 = none :=
  ⟨by with_unfolding_all decide, by decide, by with_unfolding_all decide,
    decode_best_unreachable_end_fails c2_unreachable_matrix 1
      (by with_unfolding_all decide) (by decide) (by with_unfolding_all decide)⟩

/-- C2 counterexample: on `c2_matrix` no end-compatible label has
finite cost at the final position (every admissible end state has path
probability `0`, i.e. infinite negative-log cost), yet the decoder
does not fail: it silently returns the zero-probability sequence
`B-ROOT, E-ROOT` whose pointers were recorded by first-writes at
probability zero.  The matrix is a genuine probability matrix. -/
theorem decode_best_zero_prob_substitution :
    (run_fallback c2_matrix 2).map
        (fun p => end_possible_states.all (fun e => (p.1.getLastD []).getD e 0 = 0))
      = some true ∧
    (decode_best c2_matrix 2).map Prod.fst = some ["B-ROOT", "E-ROOT"] ∧
    (∀ row ∈ c2_matrix, row.foldl (· + ·) 0 = 1 ∧ ∀ p ∈ row, 0 ≤ p) := by
  with_unfolding_all decide

/-- C6 counterexample: the argmax sequence at positions `1..m` is valid
(`S-ROOT`), so the claim as stated promises the decoder returns it; but
the trimming loop applies the successor function to the row-0 argmax
state (`PAD`), whose label does not split, and the call raises
(`ValueError` in `get_next_morpheme`) instead of returning the argmax
sequence. -/
theorem decode_best_fast_path_crash :
    best_path_labels c6_matrix 1 = some ["PAD", "S-ROOT"] ∧
    is_correct_morpheme_sequence ["S-ROOT"] = some true ∧
    decode_best c6_matrix 1 = none := by
  with_unfolding_all decide

/-- C9: the decoder is a pure function of the probability matrix and
the word length — equal inputs give equal label sequences and equal
trimmed matrices.  The embedding is deterministic because
`_decode_best` reads no mutable state and numpy's reductions are
deterministic; the one unspecified order (`np.argsort` ties) is fixed
the same way on every call. -/
theorem decode_best_deterministic (p1 p2 : List (List ℚ)) (l1 l2 : ℕ)
    (hp : p1 = p2) (hl : l1 = l2) : decode_best p1 l1 = decode_best p2 l2 := by
  rw [hp, hl]

/-- Witness for `decode_best_deterministic` at the empty matrix. -/
theorem decode_best_deterministic_witness :
    ([] : List (List ℚ)) = [] ∧ (0 : ℕ) = 0 ∧
    decode_best [] 0 = decode_best [] 0 :=
  ⟨rfl, rfl, decode_best_deterministic [] [] 0 0 rfl rfl⟩

/-- Mapping `opt_labels` preserves length. -/
theorem opt_labels_length : ∀ {l : List ℕ} {r : List String},
    opt_labels l = some r → r.length = l.length := by
  intro l
  induction l with
  | nil => intro r h; cases h; rfl
  | cons s rest ih =>
    intro r h
    simp only [opt_labels] at h
    rcases hg : target_symbols_.get? s with _ | lab <;> rw [hg] at h
    · cases h
    · rcases ho : opt_labels rest with _ | r' <;> rw [ho] at h
      · cases h
      · simp only [Option.map_some'] at h
        cases h
        simp [ih ho]

/-- Inversion of `opt_labels` on a cons cell. -/
theorem opt_labels_cons {s : ℕ} {rest : List ℕ} {r : List String}
    (h : opt_labels (s :: rest) = some r) :
    ∃ lab r', target_symbols_.get? s = some lab ∧ opt_labels rest = some r' ∧
      r = lab :: r' := by
  simp only [opt_labels] at h
  rcases hg : target_symbols_.get? s with _ | lab <;> rw [hg] at h
  · cases h
  · rcases ho : opt_labels rest with _ | r' <;> rw [ho] at h
    · cases h
    · simp only [Option.map_some'] at h
      injection h with h
      exact ⟨lab, r', rfl, rfl, h.symm⟩

/-- Unfolding `dropLast` of a cons with a nonempty tail. -/
theorem dropLast_cons_of_ne_nil {α : Type} {a : α} {l : List α} (h : l ≠ []) :
    (a :: l).dropLast = a :: l.dropLast := by
  cases l with
  | nil => exact absurd rfl h
  | cons b l' => rfl

/-- A passed adjacency check has defined successors everywhere except
at the last label. -/
theorem correct_pairs_all_some : ∀ {ms : List String},
    correct_pairs ms = some true → ∀ l ∈ ms.dropLast, (get_next_morpheme l).isSome := by
  intro ms
  induction ms with
  | nil => intro _ l hl; cases hl
  | cons a rest ih =>
    intro h l hl
    cases rest with
    | nil => simp at hl
    | cons b rest' =>
      simp only [correct_pairs] at h
      rcases hg : get_next_morpheme a with _ | nxt <;> simp only [hg] at h
      · cases h
      · by_cases hb : b ∈ nxt
        · rw [if_pos hb] at h
          rw [dropLast_cons_of_ne_nil (by simp)] at hl
          rcases List.mem_cons.mp hl with rfl | hl'
          · simp [hg]
          · exact ih h l hl'
        · rw [if_neg hb] at h
          cases h

/-- Check `is_correct_morpheme_sequence` reaching `some true` means the
adjacency loop ran and returned `true`. -/
theorem is_correct_correct_pairs {ms : List String}
    (h : is_correct_morpheme_sequence ms = some true) : correct_pairs ms = some true := by
  unfold is_correct_morpheme_sequence at h
  rcases ms with _ | ⟨m0, rest⟩
  · cases h
  · repeat' split at h
    all_goals first
      | exact h
      | simp at h

/-- State indices whose labels all have defined successors yield
defined `get_possible_next_states`. -/
theorem opt_labels_possible : ∀ {l : List ℕ} {r : List String},
    opt_labels l = some r → (∀ lab ∈ r.dropLast, (get_next_morpheme lab).isSome) →
    ∀ s ∈ l.dropLast, (get_possible_next_states s).isSome := by
  intro l
  induction l with
  | nil => intro r _ _ s hs; cases hs
  | cons s0 rest ih =>
    intro r h hall s hs
    rcases opt_labels_cons h with ⟨lab, r', hg, ho, rfl⟩
    cases rest with
    | nil => simp at hs
    | cons s1 rest' =>
      have hr' : r' ≠ [] := by
        intro h0
        have := opt_labels_length ho
        rw [h0] at this
        simp at this
      rw [dropLast_cons_of_ne_nil (by simp)] at hs
      rcases List.mem_cons.mp hs with rfl | hs'
      · have hlab : lab ∈ (lab :: r').dropLast := by
          rw [dropLast_cons_of_ne_nil hr']
          exact List.mem_cons_self _ _
        have hnx := hall lab hlab
        rcases Option.isSome_iff_exists.mp hnx with ⟨nx, hnx'⟩
        have hg' : target_symbols_[s]? = some lab := by
          rw [← List.get?_eq_getElem?]
          exact hg
        simp [get_possible_next_states, hg', hnx']
      · refine ih ho (fun lab' hl' => hall lab' ?_) s hs'
        rw [dropLast_cons_of_ne_nil hr']
        exact List.mem_cons_of_mem _ hl'

/-- The trimming loop succeeds when every kept state has a defined
successor set. -/
theorem trim_probs_isSome (probs : List (List ℚ)) :
    ∀ (sts : List ℕ) (j : ℕ), (∀ s ∈ sts, (get_possible_next_states s).isSome) →
    ∃ mat, trim_probs probs sts j = some mat := by
  intro sts
  induction sts with
  | nil => intro j _; exact ⟨[], rfl⟩
  | cons st rest ih =>
    intro j hall
    rcases Option.isSome_iff_exists.mp (hall st (List.mem_cons_self _ _)) with ⟨ps, hps⟩
    rcases ih (j + 1) (fun s hs => hall s (List.mem_cons_of_mem _ hs)) with ⟨mat, hmat⟩
    refine ⟨((List.range target_symbols_number_).map (fun s =>
      if s ∈ ps then getP probs (j + 1) s else 0)) :: mat, ?_⟩
    simp only [trim_probs, hps, hmat, Option.map_some']

/-- A successful backtracking from layer `j` yields `j + 1` states. -/
theorem backtrack_length {sts : List (List (Option ℕ))} :
    ∀ {j cur : ℕ} {p : List ℕ}, backtrack sts j cur = some p → p.length = j + 1 := by
  intro j
  induction j with
  | zero => intro cur p h; cases h; rfl
  | succ k ih =>
    intro cur p h
    simp only [backtrack] at h
    rcases hg : (sts.getD (k + 1) []).getD cur none with _ | pr <;> simp only [hg] at h
    · cases h
    · rcases hb : backtrack sts k pr with _ | l <;> simp only [hb] at h
      · cases h
      · simp only [Option.map_some'] at h
        cases h
        simp [ih hb]

/-- Loop invariant of `np.argmax`: the running best stays in range. -/
theorem argmax_aux_lt {N : ℕ} (xs : List ℚ) : ∀ (i bi : ℕ) (bv : ℚ),
    bi < N → i + xs.length ≤ N → argmax_aux xs i bi bv < N := by
  induction xs with
  | nil => intro i bi bv h1 _; exact h1
  | cons x xs ih =>
    intro i bi bv h1 h2
    simp only [argmax_aux, List.length_cons] at *
    by_cases h : bv < x
    · rw [if_pos h]
      exact ih (i + 1) i x (by omega) (by omega)
    · rw [if_neg h]
      exact ih (i + 1) bi bv h1 (by omega)

/-- Library `np.argmax` returns an in-range index on a nonempty row. -/
theorem np_argmax_lt {row : List ℚ} (h : row ≠ []) : np_argmax row < row.length := by
  cases row with
  | nil => exact absurd rfl h
  | cons x xs =>
    simp only [np_argmax, List.length_cons]
    exact argmax_aux_lt xs 1 0 x (by omega) (by omega)

/-- C6 amended: if the row-wise argmax labels exist, the content part
(positions `1..m`) passes `is_correct_morpheme_sequence`, and the row-0
argmax label admits a successor set (it is not `PAD`/`UNKNOWN`, whose
labels make `get_next_morpheme` raise in the trimming loop), then the
decoder returns exactly the argmax content sequence, computed by the
fast path without the fallback search. -/
theorem decode_best_fast_path (probs : List (List ℚ)) (length : ℕ) (bl : List String)
    (hbl : best_path_labels probs length = some bl)
    (hok : is_correct_morpheme_sequence (bl.drop 1) = some true)
    (h0 : (get_possible_next_states (np_argmax (probs.getD 0 []))).isSome) :
    ∃ mat, decode_best probs length = some (bl.drop 1, mat) := by
  have hbl_ne : bl.drop 1 ≠ [] := by
    intro h0'
    rw [h0'] at hok
    simp [is_correct_morpheme_sequence] at hok
  obtain ⟨p0, ps, rfl⟩ : ∃ p0 ps, probs = p0 :: ps := by
    cases hp : probs with
    | nil =>
      rw [hp] at hbl
      have h1 := opt_labels_length hbl
      simp [best_path_states] at h1
      exfalso
      apply hbl_ne
      cases bl with
      | nil => rfl
      | cons a l => simp at h1
    | cons p0 ps => exact ⟨p0, ps, rfl⟩
  have hbs : best_path_states (p0 :: ps) length
      = np_argmax p0 :: (ps.take length).map np_argmax := by
    simp only [best_path_states, Nat.add_comm 1 length, List.take_succ_cons, List.map_cons]
  have hbl' : opt_labels (np_argmax p0 :: (ps.take length).map np_argmax) = some bl := by
    rw [← hbs]
    exact hbl
  rcases opt_labels_cons hbl' with ⟨lab0, r', hg0, horest, hblr⟩
  have hdrop : bl.drop 1 = r' := by rw [hblr]; rfl
  have hrest_ne : (ps.take length).map np_argmax ≠ [] := by
    intro h1
    apply hbl_ne
    rw [hdrop]
    have h2 := opt_labels_length horest
    rw [h1] at h2
    simp at h2
    exact h2
  have hall : ∀ s ∈ (best_path_states (p0 :: ps) length).dropLast,
      (get_possible_next_states s).isSome := by
    rw [hbs, dropLast_cons_of_ne_nil hrest_ne]
    intro s hs
    rcases List.mem_cons.mp hs with rfl | hs'
    · simpa using h0
    · refine opt_labels_possible horest ?_ s hs'
      intro lab hlab
      exact correct_pairs_all_some (is_correct_correct_pairs (hdrop ▸ hok)) lab hlab
  rcases trim_probs_isSome (p0 :: ps) _ 0 hall with ⟨mat, hmat⟩
  have hlabels : opt_labels ((best_path_states (p0 :: ps) length).drop 1) = some r' := by
    rw [hbs]
    exact horest
  refine ⟨mat, ?_⟩
  rw [hdrop]
  simp only [decode_best, hbl, hok, if_true, hmat, hlabels]

/-- Witness for `decode_best_fast_path` on `c6_fast_matrix`. -/
theorem decode_best_fast_path_witness :
    best_path_labels c6_fast_matrix 1 = some ["BEGIN", "S-ROOT"] ∧
    is_correct_morpheme_sequence (["BEGIN", "S-ROOT"].drop 1) = some true ∧
    (get_possible_next_states (np_argmax (c6_fast_matrix.getD 0 []))).isSome ∧
    ∃ mat, decode_best c6_fast_matrix 1 = some (["BEGIN", "S-ROOT"].drop 1, mat) :=
  ⟨by with_unfolding_all decide, by with_unfolding_all decide, by with_unfolding_all decide,
    decode_best_fast_path c6_fast_matrix 1 ["BEGIN", "S-ROOT"]
      (by with_unfolding_all decide) (by with_unfolding_all decide)
      (by with_unfolding_all decide)⟩

/-- Over the initial fallback layer every admissible end state has
infinite cost (probability `0`), so `min` keeps the first candidate,
`E-ROOT` (code 12), whatever `BEGIN`'s entry is. -/
theorem min_by_cost_initial (x : ℚ) :
    min_by_cost ((List.replicate target_symbols_number_ (0 : ℚ)).set BEGIN x)
      end_possible_states = some 12 := by
  with_unfolding_all rfl

/-- C7: under the documented probability-matrix shape (`m + 2` rows
over the label alphabet), every label sequence the decoder returns has
length exactly `m`, and for the empty word (`m = 0`) the decoder always
succeeds, returning the empty label list with an empty trimmed matrix
(the empty argmax tail fails validation, the fallback runs zero layers,
and backtracking from the minimal end state is immediate). -/
theorem decode_best_output_length (probs : List (List ℚ)) (length : ℕ)
    (hrows : probs.length = length + 2)
    (hw : ∀ row ∈ probs, row.length = target_symbols_number_) :
    (∀ ls mat, decode_best probs length = some (ls, mat) → ls.length = length) ∧
    (length = 0 → decode_best probs length = some ([], [])) := by
  have hbslen : (best_path_states probs length).length = 1 + length := by
    simp only [best_path_states, List.length_map, List.length_take, hrows]
    omega
  constructor
  · intro ls mat h
    simp only [decode_best] at h
    rcases hbl : best_path_labels probs length with _ | bl <;> simp only [hbl] at h
    · cases h
    rcases hic : is_correct_morpheme_sequence (bl.drop 1) with _ | ok <;>
      simp only [hic] at h
    · cases h
    cases ok with
    | true =>
      rw [if_pos rfl] at h
      rcases htr : trim_probs probs (best_path_states probs length).dropLast 0
        with _ | mat' <;> simp only [htr] at h
      · cases h
      rcases hol : opt_labels ((best_path_states probs length).drop 1)
        with _ | ls' <;> simp only [hol] at h
      · cases h
      · simp only [Option.some.injEq, Prod.mk.injEq] at h
        obtain ⟨rfl, rfl⟩ := h
        have h1 := opt_labels_length hol
        rw [h1, List.length_drop, hbslen]
        omega
    | false =>
      simp only [Bool.false_eq_true, if_false] at h
      rcases hfb : run_fallback probs length with _ | cs_sts <;> simp only [hfb] at h
      · cases h
      rcases hmin : min_by_cost (cs_sts.1.getLastD []) end_possible_states with _ | e <;>
        simp only [hmin] at h
      · cases h
      rcases hbt : backtrack cs_sts.2 length e with _ | p <;> simp only [hbt] at h
      · cases h
      rcases htr : trim_probs probs p.dropLast 0 with _ | mat' <;> simp only [htr] at h
      · cases h
      rcases hol : opt_labels (p.drop 1) with _ | ls' <;> simp only [hol] at h
      · cases h
      · simp only [Option.some.injEq, Prod.mk.injEq] at h
        obtain ⟨rfl, rfl⟩ := h
        have h1 := opt_labels_length hol
        have h2 := backtrack_length hbt
        rw [h1, List.length_drop, h2]
        omega
  · rintro rfl
    obtain ⟨p0, ps, rfl⟩ : ∃ p0 ps, probs = p0 :: ps := by
      cases probs with
      | nil => simp at hrows
      | cons a l => exact ⟨a, l, rfl⟩
    have hp0 : p0.length = target_symbols_number_ := hw p0 (List.mem_cons_self _ _)
    have hp0ne : p0 ≠ [] := by
      intro h0
      rw [h0] at hp0
      simp [target_symbols_number_, target_symbols_, AUXILIARY] at hp0
    have ha0 : np_argmax p0 < target_symbols_.length := by
      have h1 := np_argmax_lt hp0ne
      rw [hp0] at h1
      simpa [target_symbols_number_] using h1
    obtain ⟨lab, hlab⟩ : ∃ lab, target_symbols_.get? (np_argmax p0) = some lab := by
      rw [List.get?_eq_get ha0]
      exact ⟨_, rfl⟩
    have hbl : best_path_labels (p0 :: ps) 0 = some [lab] := by
      simp only [best_path_labels, best_path_states, List.take_succ_cons, List.take_zero,
        List.map_cons, List.map_nil]
      simp only [opt_labels, hlab, Option.map_some']
    simp only [decode_best, hbl]
    have hic : is_correct_morpheme_sequence ([lab].drop 1) = some false := rfl
    simp only [hic, Bool.false_eq_true, if_false]
    have hfb : run_fallback (p0 :: ps) 0 =
        some ([(List.replicate target_symbols_number_ (0 : ℚ)).set BEGIN
                (getP (p0 :: ps) 0 BEGIN)],
              [(List.replicate target_symbols_number_ (none : Option ℕ)).set BEGIN
                (some BEGIN)]) := rfl
    simp only [hfb]
    have hlast : ([(List.replicate target_symbols_number_ (0 : ℚ)).set BEGIN
        (getP (p0 :: ps) 0 BEGIN)]).getLastD [] =
        (List.replicate target_symbols_number_ (0 : ℚ)).set BEGIN
          (getP (p0 :: ps) 0 BEGIN) := rfl
    simp only [hlast, min_by_cost_initial]
    rfl

/-- Witness for `decode_best_output_length` at the empty word. -/
theorem decode_best_output_length_witness :
    c7_matrix.length = 0 + 2 ∧
    (∀ row ∈ c7_matrix, row.length = target_symbols_number_) ∧
    decode_best c7_matrix 0 = some ([], []) :=
  ⟨by decide, by decide,
    (decode_best_output_length c7_matrix 0 (by decide) (by decide)).2 rfl⟩

end MorphemeSeg
